import Mathlib

/-!
Shallow embedding of the video-processing core of the repository
(`modules/video_processor.py` and `modules/llm_analyzer.py`):
geometry planning, caption word wrapping, overlay-timeline compilation,
filter-graph and command assembly, overlay validation, and outro stitching.

Python strings are modelled as `List Char` (one entry per Unicode code
point, matching Python `len`/slicing semantics).  Python `float` values
are modelled as exact rationals `ℚ`; the claims under study do not
concern binary floating-point rounding.  Python whitespace (for
`str.split()` / `str.strip()`) is modelled by `Char.isWhitespace`.
-/

namespace VidCore

/-- Characters of a Python string, one entry per Unicode code point. -/
abbrev Text := List Char

/-- Membership in the character class of the symbol/pictograph regular
expression of `_wrap_text_for_vertical_video` (video_processor.py line 142):
the six code-point ranges 1F600-1F64F, 1F300-1F5FF, 1F680-1F6FF,
1F1E0-1F1FF, 2702-27B0 and 24C2-1F251. -/
def isEmojiChar (c : Char) : Bool :=
  let n := c.toNat
  (0x1F600 ≤ n && n ≤ 0x1F64F) || (0x1F300 ≤ n && n ≤ 0x1F5FF) ||
  (0x1F680 ≤ n && n ≤ 0x1F6FF) || (0x1F1E0 ≤ n && n ≤ 0x1F1FF) ||
  (0x2702 ≤ n && n ≤ 0x27B0) || (0x24C2 ≤ n && n ≤ 0x1F251)

/-- `re.sub(emoji_pattern, '', s)`: deleting every maximal run matched by the
class deletes exactly the characters belonging to the class. -/
def stripEmoji (t : Text) : Text := t.filter (fun c => !isEmojiChar c)

/-- The length the wrapper counts for a fragment:
`len(re.sub(emoji_pattern, '', s))`. -/
def strippedLen (t : Text) : Nat := (stripEmoji t).length

/-- Scanner for `str.split()`: `acc` holds the reversed characters of the
non-whitespace run being read. -/
def splitWsGo : Text → Text → List Text
  | [], acc => if acc = [] then [] else [acc.reverse]
  | c :: cs, acc =>
    if c.isWhitespace then
      if acc = [] then splitWsGo cs [] else acc.reverse :: splitWsGo cs []
    else splitWsGo cs (c :: acc)

/-- `str.split()` with no argument: the maximal runs of non-whitespace
characters, in order; separators and empty fragments are discarded. -/
def splitWs (t : Text) : List Text := splitWsGo t []

/-- `' '.join(words)`. -/
def joinWords : List Text → Text
  | [] => []
  | [w] => w
  | w :: ws => w ++ ' ' :: joinWords ws

/-- `'\n'.join(lines)`. -/
def joinNL : List Text → Text
  | [] => []
  | [l] => l
  | l :: ls => l ++ '\n' :: joinNL ls

/-- The word-accumulation loop of `_wrap_text_for_vertical_video`
(video_processor.py lines 146-170): state is the list of finished lines and
the line under construction; a word is appended to the current line when the
emoji-stripped length of the extended line stays within the budget, and
otherwise starts a new line. -/
def wrapGo (maxChars : Nat) : List Text → List Text → Text → List Text
  | [], lines, current => if current = [] then lines else lines ++ [current]
  | w :: ws, lines, current =>
    let potential :=
      if current = [] then strippedLen w
      else strippedLen current + 1 + strippedLen w
    if potential ≤ maxChars then
      wrapGo maxChars ws lines (if current = [] then w else current ++ ' ' :: w)
    else
      wrapGo maxChars ws (if current = [] then lines else lines ++ [current]) w

/-- The `while` loop of lines 178-179 on the reversed word list, so that
popping the last word is dropping the head: pop words until the
emoji-stripped length of the join of the remaining (re-reversed) words is
within budget minus 3.  The comparison is over `ℤ` because Python evaluates
`max_chars_per_line - 3` in unbounded signed arithmetic. -/
def popRev (maxChars : Nat) : List Text → List Text
  | [] => []
  | w :: ws =>
    if ((maxChars : ℤ) - 3 < (strippedLen (joinWords (w :: ws).reverse) : ℤ)) then
      popRev maxChars ws
    else w :: ws

/-- `words_in_last_line` after the pop loop of lines 178-179. -/
def popWhile (maxChars : Nat) (ws : List Text) : List Text :=
  (popRev maxChars ws.reverse).reverse

/-- Lines 176-182: re-truncate the second kept line, appending an ellipsis. -/
def fixLastLine (maxChars : Nat) (l : Text) : Text :=
  if ((maxChars : ℤ) - 3 < (strippedLen l : ℤ)) then
    joinWords (popWhile maxChars (splitWs l)) ++ ('.' :: '.' :: '.' :: [])
  else l ++ ('.' :: '.' :: '.' :: [])

/-- Lines 173-182: keep at most the first two lines; when lines were
dropped, ellipsis-truncate the last kept line. -/
def truncTo2 (maxChars : Nat) (lines : List Text) : List Text :=
  if 2 < lines.length then
    match lines.take 2 with
    | [a, b] => [a, fixLastLine maxChars b]
    | other => other
  else lines

/-- `_wrap_text_for_vertical_video(text, max_chars_per_line)`
(video_processor.py lines 129-185). -/
def wrapText (maxChars : Nat) (t : Text) : Text :=
  joinNL (truncTo2 maxChars (wrapGo maxChars (splitWs t) [] []))

/-- Python `int()` applied to a (here: exact rational) number: truncation
toward zero. -/
def pyTrunc (q : ℚ) : ℤ := if 0 ≤ q then ⌊q⌋ else ⌈q⌉

/-- `_calculate_crop_params(width, height)` (video_processor.py lines
100-127).  Returns `(crop_width, crop_height, x_offset, y_offset)`.
`//` of Python is floor division, `Int.fdiv`. -/
def calcCropParams (width height : ℤ) : ℤ × ℤ × ℤ × ℤ :=
  let targetAspect : ℚ := 9 / 16
  let currentAspect : ℚ := (width : ℚ) / (height : ℚ)
  if targetAspect < currentAspect then
    let cropHeight := height
    let cropWidth := pyTrunc ((height : ℚ) * targetAspect)
    (cropWidth, cropHeight, (width - cropWidth).fdiv 2, 0)
  else
    let cropWidth := width
    let cropHeight := pyTrunc ((width : ℚ) / targetAspect)
    (cropWidth, cropHeight, 0, (height - cropHeight).fdiv 2)

/-- `str.strip()`: remove leading and trailing whitespace. -/
def pyStrip (t : Text) : Text :=
  ((t.dropWhile Char.isWhitespace).reverse.dropWhile Char.isWhitespace).reverse

/-- A JSON value sitting in one field of a raw overlay instruction, as far
as `_validate_overlay_data` (llm_analyzer.py) distinguishes them: a number
(`int`/`float`), a string, an absent key, or any other JSON value. -/
inductive JVal where
  | num (q : ℚ)
  | str (s : Text)
  | missing
  | other
deriving DecidableEq

/-- One element of the raw `overlays` list: either not a JSON object
(skipped at line 163) or an object with its three relevant fields. -/
inductive RawItem where
  | notDict
  | obj (timestamp text duration : JVal)
deriving DecidableEq

/-- `dict.get(key, default)`. -/
def jGet (v : JVal) (d : JVal) : JVal :=
  match v with
  | .missing => d
  | v => v

/-- A validated overlay instruction as appended at llm_analyzer.py
lines 186-190. -/
structure OverlayItem where
  timestamp : ℚ
  text : Text
  duration : ℚ
deriving DecidableEq

/-- The body of the validation loop of `_validate_overlay_data`
(llm_analyzer.py lines 161-190): `none` models `continue`. -/
def validateItem : RawItem → Option OverlayItem
  | .notDict => none
  | .obj ts tx du =>
    match jGet ts (.num 0) with
    | .num t =>
      if t < 0 then none
      else
        match jGet tx (.str []) with
        | .str s =>
          if (pyStrip s).length = 0 then none
          else
            let s2 := if 100 < s.length then s.take 97 ++ ('.' :: '.' :: '.' :: []) else s
            let d : ℚ :=
              match jGet du (.num 3) with
              | .num dq => if dq ≤ 0 then 3 else dq
              | _ => 3
            some ⟨t, pyStrip s2, d⟩
        | _ => none
    | _ => none

/-- `validated_overlays.sort(key=lambda x: x['timestamp'])`: a stable sort
ascending by timestamp. -/
def sortByTimestamp (l : List OverlayItem) : List OverlayItem :=
  l.mergeSort (fun a b => decide (a.timestamp ≤ b.timestamp))

/-- `_validate_overlay_data` (llm_analyzer.py lines 146-195).  The argument
is `none` when the `overlays` key is absent (replaced by `[]` at line 157). -/
def validateOverlayData (items : Option (List RawItem)) : List OverlayItem :=
  sortByTimestamp ((items.getD []).filterMap validateItem)

/-- The documented default substituted by `_extract_json_from_response`
(llm_analyzer.py lines 136-144) when no valid JSON can be extracted. -/
def fallbackExtraction : List RawItem :=
  [RawItem.obj (.num 5) (.str ("💰 Financial tip!".data)) (.num 3)]

/-- `_extract_json_from_response` at its interface: the argument is `some d`
when some JSON object was parsed (with `d` the contents of its `overlays`
key, `none` when the key is absent) and `none` when every parse attempt
failed, in which case the documented default is substituted. -/
def extractOverlays (parsed : Option (Option (List RawItem))) : Option (List RawItem) :=
  match parsed with
  | some d => d
  | none => some fallbackExtraction

/-- The extraction-then-validation pipeline of `analyze_transcript`
(llm_analyzer.py lines 221-222). -/
def compileOverlays (parsed : Option (Option (List RawItem))) : List OverlayItem :=
  validateOverlayData (extractOverlays parsed)

/-- The timing slice of the overlay loop of `_create_overlay_filter`
(video_processor.py lines 211-240): `none` models the `continue` for an
overlay starting at or past the end of the video; otherwise the duration is
clamped to the remaining runtime and the activation window
`(start_time, end_time)` is returned. -/
def overlayWindow (o : OverlayItem) (videoDur : ℚ) : Option (ℚ × ℚ) :=
  if videoDur ≤ o.timestamp then none
  else
    let d := if videoDur < o.timestamp + o.duration then videoDur - o.timestamp else o.duration
    let start := max 0 o.timestamp
    some (start, start + d)

/-- Decimal rendering of an integer, as a Python f-string renders an `int`. -/
def renderInt (n : ℤ) : Text :=
  if n < 0 then '-' :: Nat.toDigits 10 n.natAbs else Nat.toDigits 10 n.natAbs

/-- Round half to even, the rounding used by Python numeric formatting. -/
def rhe (x : ℚ) : ℤ :=
  let n := ⌊x⌋
  if x - n < 1 / 2 then n
  else if 1 / 2 < x - n then n + 1
  else if Even n then n else n + 1

/-- Python `f"{x:.1f}"` on an exact rational value. -/
def fmt1 (x : ℚ) : Text :=
  let m := rhe (x * 10)
  (if m < 0 then ['-'] else []) ++
    renderInt (m.natAbs / 10) ++ '.' :: renderInt (m.natAbs % 10)

/-- The escaping of line 236: `:`, `'`, `"` are backslash-escaped and a
newline becomes the two characters `\n`. -/
def escapeDrawtext (t : Text) : Text :=
  t.flatMap (fun c =>
    if c = ':' then ['\\', ':']
    else if c = '\x27' then ['\\', '\x27']
    else if c = '"' then ['\\', '"']
    else if c = '\n' then ['\\', 'n']
    else [c])

/-- The configuration values read by the processing path, with the defaults
of the corresponding `config.get` calls. -/
structure RenderConfig where
  fontSize : ℤ
  fontColor : Text
  outlineColor : Text
  outlineWidth : ℤ
  fadeDuration : ℚ
  logoEnabled : Bool
  logoExists : Bool
  logoPos : Text
  logoSizePct : ℚ
  logoMargin : ℤ
  targetW : ℤ
  targetH : ℤ
  videoCodec : Text
  audioCodec : Text
  bitrate : Text
  crf : ℤ
  outputFps : ℤ
  outroEnabled : Bool
deriving DecidableEq

/-- One `drawtext` stage of `_create_overlay_filter` (video_processor.py
lines 211-265), `none` when the overlay is skipped. -/
def drawtextFilter (cfg : RenderConfig) (o : OverlayItem) (videoDur : ℚ) : Option Text :=
  (overlayWindow o videoDur).map (fun se =>
    let wrapped := wrapText 20 o.text
    let isMulti : Bool := wrapped.contains '\n'
    let fsize := if isMulti then pyTrunc ((cfg.fontSize : ℚ) * (85 / 100)) else cfg.fontSize
    let s := se.1
    let e := se.2
    "drawtext=text=\x27".data ++ escapeDrawtext wrapped ++ "\x27".data ++
    ":fontsize=".data ++ renderInt fsize ++
    ":fontcolor=".data ++ cfg.fontColor ++
    ":borderw=".data ++ renderInt cfg.outlineWidth ++
    ":bordercolor=".data ++ cfg.outlineColor ++
    ":x=(w-text_w)/2".data ++
    (if isMulti then ":y=(h-text_h)*0.65".data else ":y=(h-text_h)*0.7".data) ++
    ":box=1:boxcolor=black@0.4:boxborderw=8".data ++
    ":enable=\x27between(t,".data ++ fmt1 s ++ ",".data ++ fmt1 e ++ ")\x27".data ++
    (if 0 < cfg.fadeDuration then
      ":alpha=\x27if(lt(t,".data ++ fmt1 (s + cfg.fadeDuration) ++ "),(t-".data ++
      fmt1 s ++ ")/".data ++ fmt1 cfg.fadeDuration ++ ",1)*if(gt(t,".data ++
      fmt1 (e - cfg.fadeDuration) ++ "),(".data ++ fmt1 e ++ "-t)/".data ++
      fmt1 cfg.fadeDuration ++ ",1)\x27".data
    else []))

/-- `','.join(filters)`. -/
def joinComma : List Text → Text
  | [] => []
  | [l] => l
  | l :: ls => l ++ ',' :: joinComma ls

/-- `';'.join(filters)`. -/
def joinSemi : List Text → Text
  | [] => []
  | [l] => l
  | l :: ls => l ++ ';' :: joinSemi ls

/-- `_create_overlay_filter(overlays, video_duration)` (video_processor.py
lines 187-267): the comma-join of the per-overlay drawtext stages (which is
the empty string both when the list is empty and when every overlay is
skipped). -/
def createOverlayFilter (cfg : RenderConfig) (os : List OverlayItem) (videoDur : ℚ) : Text :=
  joinComma (os.filterMap (fun o => drawtextFilter cfg o videoDur))

/-- The position-and-size part of `_create_logo_filter` (video_processor.py
lines 290-308): everything after the two input labels. -/
def logoFilterCore (cfg : RenderConfig) (w h : ℤ) : Text :=
  let size := pyTrunc ((min w h : ℚ) * cfg.logoSizePct / 100)
  let m := cfg.logoMargin
  let pos :=
    if cfg.logoPos = "top-left".data then renderInt m ++ ':' :: renderInt m
    else if cfg.logoPos = "bottom-left".data then
      renderInt m ++ ':' :: renderInt (h - size - m)
    else if cfg.logoPos = "bottom-right".data then
      renderInt (w - size - m) ++ ':' :: renderInt (h - size - m)
    else if cfg.logoPos = "center".data then
      renderInt ((w - size).fdiv 2) ++ ':' :: renderInt ((h - size).fdiv 2)
    else renderInt (w - size - m) ++ ':' :: renderInt m
  "overlay=".data ++ pos

/-- `_create_logo_filter(video_width, video_height)` (lines 269-308):
empty when the logo stage is disabled or its asset is missing. -/
def logoFilterStr (cfg : RenderConfig) (w h : ℤ) : Text :=
  if cfg.logoEnabled && cfg.logoExists then "[0:v][1:v]".data ++ logoFilterCore cfg w h
  else []

/-- The filter-graph assembly of `process_video` (video_processor.py lines
346-392): the list of `-filter_complex` entries together with the label of
the processed video stream.  The `replace('[0:v]', '[cropped]')` of line 376
rewrites exactly the leading input label of the logo filter. -/
def assembleFilters (cfg : RenderConfig) (w h : ℤ) (videoDur : ℚ)
    (os : List OverlayItem) : List Text × Text :=
  let c := calcCropParams w h
  let cropW := c.1
  let cropH := c.2.1
  let cropF := "[0:v]crop=".data ++ renderInt cropW ++ ':' :: renderInt cropH ++
    ':' :: renderInt c.2.2.1 ++ ':' :: renderInt c.2.2.2
  let scaleF : Text :=
    if cropW ≠ cfg.targetW ∨ cropH ≠ cfg.targetH then
      ",scale=".data ++ renderInt cfg.targetW ++ ':' :: renderInt cfg.targetH
    else []
  let baseF := cropF ++ scaleF
  let logoF := logoFilterStr cfg cropW cropH
  let filters1 : List Text :=
    if logoF ≠ [] then
      [baseF ++ "[cropped]".data,
       "[cropped][1:v]".data ++ logoFilterCore cfg cropW cropH ++ "[with_logo]".data]
    else [baseF ++ "[processed]".data]
  let vout1 : Text := if logoF ≠ [] then "[with_logo]".data else "[processed]".data
  let ovF := createOverlayFilter cfg os videoDur
  if ovF ≠ [] then
    (filters1 ++ [vout1 ++ ovF ++ "[final]".data], "[final]".data)
  else (filters1, vout1)

/-- The full ffmpeg invocation assembled by `process_video` (lines 340-412):
inputs, filter plan (or the stream-copy fallback of line 401), stream
mapping, and output encode parameters. -/
def buildCmd (cfg : RenderConfig) (videoPath logoPath outPath : Text)
    (w h : ℤ) (videoDur : ℚ) (os : List OverlayItem) : List Text :=
  let inputs := ["ffmpeg".data, "-y".data, "-i".data, videoPath] ++
    (if cfg.logoEnabled && cfg.logoExists then ["-i".data, logoPath] else [])
  let fv := assembleFilters cfg w h videoDur os
  let mid : List Text :=
    if fv.1 ≠ [] then
      ["-filter_complex".data, joinSemi fv.1, "-map".data, fv.2, "-map".data, "0:a".data]
    else ["-c:v".data, "copy".data, "-c:a".data, "copy".data]
  inputs ++ mid ++
    ["-c:v".data, cfg.videoCodec, "-c:a".data, cfg.audioCodec,
     "-b:v".data, cfg.bitrate, "-crf".data, renderInt cfg.crf,
     "-r".data, renderInt cfg.outputFps, "-movflags".data, "+faststart".data, outPath]

/-- A configuration with every optional stage off (logo disabled and its
asset absent, outro disabled) and all other values at the documented
`config.get` defaults. -/
def noLogoCfg : RenderConfig :=
  ⟨48, "white".data, "black".data, 2, 1 / 2, false, false, "top-right".data,
    15, 20, 1080, 1920, "libx264".data, "aac".data, "2M".data, 23, 30, false⟩

/-- The environment `_add_outro` (video_processor.py lines 445-546) runs in:
whether the outro asset exists and whether each externally observable step
succeeds, in the order the steps run. -/
structure OutroEnv where
  outroExists : Bool
  mainInfoOk : Bool
  outroInfoOk : Bool
  convertOk : Bool
  concatOk : Bool
deriving DecidableEq

/-- `Path(p).stem + "_with_outro.mp4"` for the paths built at lines 466-468
(directory part elided: the output stays in the input's directory). -/
def withOutroName (p : Text) : Text :=
  (if p.contains '.' then ((p.reverse.dropWhile (fun c => c ≠ '.')).drop 1).reverse else p) ++
    "_with_outro.mp4".data

/-- The `try` block of `_add_outro` (lines 462-539): each step that can
raise is checked in source order; the first failure raises. -/
def addOutroTry (env : OutroEnv) (videoPath : Text) : Except Text Text :=
  if !env.mainInfoOk then .error "Error getting video info".data
  else if !env.outroInfoOk then .error "Error getting video info".data
  else if !env.convertOk then .error "FFmpeg error adding outro".data
  else if !env.concatOk then .error "FFmpeg error adding outro".data
  else .ok (withOutroName videoPath)

/-- `_add_outro(video_path)` (video_processor.py lines 445-546): a missing
outro asset returns the input path (lines 457-460); any exception inside the
`try` block is caught at lines 541-546 and the input path is returned. -/
def addOutro (env : OutroEnv) (videoPath : Text) : Except Text Text :=
  if !env.outroExists then .ok videoPath
  else
    match addOutroTry env videoPath with
    | .ok p => .ok p
    | .error _ => .ok videoPath

/-! ## Theorems -/

/-- C2 counterexample: at the claim's own 1920×1080 instance the code's
crop width is `int(1080 * 0.5625) = 607` (truncation of 607.5), while the
claim's formula `round(height × targetRatio)` gives 608, so the claimed
formula does not describe the code (the claim is also internally
inconsistent, since it asserts the 607-wide window for the same input). -/
theorem crop_params_round_cex :
    (calcCropParams 1920 1080).1 = 607 ∧ round ((1080 : ℚ) * (9 / 16)) = 608 ∧
      (calcCropParams 1920 1080).1 ≠ round ((1080 : ℚ) * (9 / 16)) := by
  refine ⟨?_, ?_, ?_⟩ <;> norm_num [calcCropParams, pyTrunc, round_eq]

/-- C2 (amended): for a source wider than the target ratio the planner
returns cropHeight = height, cropWidth = ⌊height × 9/16⌋ (truncation, not
rounding to nearest), xOffset = (width − cropWidth) // 2 (floor division)
and yOffset = 0; at 1920×1080 this gives the 607×1080 window with
xOffset 656. -/
theorem crop_params_wide (w h : ℤ) (hh : 0 < h) (hr : (9 : ℚ) / 16 < (w : ℚ) / (h : ℚ)) :
    calcCropParams w h =
      (⌊(h : ℚ) * (9 / 16)⌋, h, (w - ⌊(h : ℚ) * (9 / 16)⌋).fdiv 2, 0) := by
  have h0 : (0 : ℚ) ≤ (h : ℚ) * (9 / 16) := by positivity
  simp only [calcCropParams, pyTrunc, if_pos hr, if_pos h0]

/-- C2 witness: the amended formula applied at the 1920×1080 instance. -/
theorem crop_params_wide_witness :
    (0 : ℤ) < 1080 ∧ (9 : ℚ) / 16 < (1920 : ℚ) / (1080 : ℚ) ∧
      calcCropParams 1920 1080 =
        (⌊(1080 : ℚ) * (9 / 16)⌋, 1080, ((1920 : ℤ) - ⌊(1080 : ℚ) * (9 / 16)⌋).fdiv 2, 0) :=
  ⟨by norm_num, by norm_num,
    crop_params_wide 1920 1080 (by norm_num) (by norm_num)⟩

/-- C8: for positive source dimensions the computed crop window lies
entirely inside the source frame. -/
theorem crop_window_inside_frame (w h : ℤ) (hw : 0 < w) (hh : 0 < h) :
    0 ≤ (calcCropParams w h).2.2.1 ∧ 0 ≤ (calcCropParams w h).2.2.2 ∧
      (calcCropParams w h).2.2.1 + (calcCropParams w h).1 ≤ w ∧
      (calcCropParams w h).2.2.2 + (calcCropParams w h).2.1 ≤ h := by
  have hhq : (0 : ℚ) < (h : ℚ) := by exact_mod_cast hh
  have hwq : (0 : ℚ) < (w : ℚ) := by exact_mod_cast hw
  simp only [calcCropParams, pyTrunc]
  by_cases hr : (9 : ℚ) / 16 < (w : ℚ) / (h : ℚ)
  · have h0 : (0 : ℚ) ≤ (h : ℚ) * (9 / 16) := by positivity
    simp only [if_pos hr, if_pos h0]
    have hcw : ⌊(h : ℚ) * (9 / 16)⌋ < w := by
      have hq : (h : ℚ) * (9 / 16) < (w : ℚ) := by
        have := (div_lt_div_iff₀ (by norm_num) hhq).mp hr
        linarith
      exact Int.floor_lt.mpr hq
    have ha : 0 ≤ w - ⌊(h : ℚ) * (9 / 16)⌋ := by omega
    have hfe : (w - ⌊(h : ℚ) * (9 / 16)⌋).fdiv 2 = (w - ⌊(h : ℚ) * (9 / 16)⌋) / 2 :=
      Int.fdiv_eq_ediv _ (by norm_num)
    refine ⟨?_, le_refl 0, ?_, by omega⟩
    · rw [hfe]; exact Int.ediv_nonneg ha (by norm_num)
    · rw [hfe]
      have := Int.ediv_le_self 2 ha
      omega
  · have hle : (w : ℚ) / (h : ℚ) ≤ 9 / 16 := not_lt.mp hr
    have h0 : (0 : ℚ) ≤ (w : ℚ) / (9 / 16) := by positivity
    simp only [if_neg hr, if_pos h0]
    have hch : ⌊(w : ℚ) / (9 / 16)⌋ ≤ h := by
      have hq : (w : ℚ) / (9 / 16) ≤ (h : ℚ) := by
        rw [div_le_div_iff₀ hhq (by norm_num)] at hle
        rw [div_le_iff₀ (by norm_num : (0:ℚ) < 9 / 16)]
        linarith
      exact le_trans (Int.floor_le_floor hq) (le_of_eq (Int.floor_intCast h))
    have ha : 0 ≤ h - ⌊(w : ℚ) / (9 / 16)⌋ := by omega
    have hfe : (h - ⌊(w : ℚ) / (9 / 16)⌋).fdiv 2 = (h - ⌊(w : ℚ) / (9 / 16)⌋) / 2 :=
      Int.fdiv_eq_ediv _ (by norm_num)
    refine ⟨le_refl 0, ?_, by omega, ?_⟩
    · rw [hfe]; exact Int.ediv_nonneg ha (by norm_num)
    · rw [hfe]
      have := Int.ediv_le_self 2 ha
      omega

/-- C8 witness: the crop window of a 1920×1080 source sits inside the
frame. -/
theorem crop_window_inside_frame_witness :
    (0 : ℤ) < 1920 ∧ (0 : ℤ) < 1080 ∧
      (0 ≤ (calcCropParams 1920 1080).2.2.1 ∧ 0 ≤ (calcCropParams 1920 1080).2.2.2 ∧
        (calcCropParams 1920 1080).2.2.1 + (calcCropParams 1920 1080).1 ≤ 1920 ∧
        (calcCropParams 1920 1080).2.2.2 + (calcCropParams 1920 1080).2.1 ≤ 1080) :=
  ⟨by norm_num, by norm_num,
    crop_window_inside_frame 1920 1080 (by norm_num) (by norm_num)⟩

/-- C4 counterexample: a raw instruction with negative timestamp −1,
duration 2 against a 10-second video is compiled to the window (0, 2),
whose end 2 differs from min(timestamp + duration, duration) = 1. -/
theorem overlay_window_negative_cex :
    overlayWindow ⟨-1, ['x'], 2⟩ 10 = some (0, 2) ∧
      min ((-1 : ℚ) + 2) 10 = 1 ∧ ((2 : ℚ) ≠ 1) := by
  refine ⟨?_, by norm_num, by norm_num⟩
  norm_num [overlayWindow]

/-- C4 (amended): an instruction with timestamp ≥ video duration is
excluded from the compiled timeline; an instruction with non-negative
timestamp below the video duration gets the activation window
(timestamp, min(timestamp + duration, videoDuration)).  (For a negative
raw timestamp the window start is clamped to 0 while the clamped duration
is kept, so the window end can differ from that minimum.) -/
theorem overlay_window_amended (o : OverlayItem) (D : ℚ) :
    (D ≤ o.timestamp → overlayWindow o D = none) ∧
      (0 ≤ o.timestamp → o.timestamp < D →
        overlayWindow o D = some (o.timestamp, min (o.timestamp + o.duration) D)) := by
  constructor
  · intro h
    simp [overlayWindow, h]
  · intro h0 hlt
    simp only [overlayWindow, if_neg (not_le.mpr hlt)]
    rw [max_eq_right h0]
    split_ifs with hd
    · rw [min_eq_right (le_of_lt hd)]
      norm_num
    · rw [min_eq_left (not_lt.mp hd)]

/-- C4 witness: the amended window formula at the concrete instance of an
overlay at 58s of duration 5 in a 60-second video (clamped end 60),
plus the exclusion of an overlay at 100s in a 60-second video. -/
theorem overlay_window_amended_witness :
    ((60 : ℚ) ≤ 100 ∧ overlayWindow ⟨100, ['x'], 3⟩ 60 = none) ∧
      ((0 : ℚ) ≤ 58 ∧ (58 : ℚ) < 60 ∧
        overlayWindow ⟨58, ['x'], 5⟩ 60 = some (58, min (58 + 5) 60)) :=
  ⟨⟨by norm_num, (overlay_window_amended ⟨100, ['x'], 3⟩ 60).1 (by norm_num)⟩,
    by norm_num, by norm_num,
    (overlay_window_amended ⟨58, ['x'], 5⟩ 60).2 (by norm_num) (by norm_num)⟩

/-- C7: outro stitching never raises: for every environment the result is a
returned path, and when the outro asset is missing or any
probe/normalization/concatenation step fails the returned path is exactly
the pre-outro input path. -/
theorem outro_soft_failure (env : OutroEnv) (p : Text) :
    (∃ q, addOutro env p = Except.ok q) ∧
      ((env.outroExists = false ∨ env.mainInfoOk = false ∨ env.outroInfoOk = false ∨
          env.convertOk = false ∨ env.concatOk = false) →
        addOutro env p = Except.ok p) := by
  obtain ⟨oe, mi, oi, cv, cc⟩ := env
  constructor
  · cases oe <;> cases mi <;> cases oi <;> cases cv <;> cases cc <;>
      simp [addOutro, addOutroTry]
  · intro h
    cases oe <;> cases mi <;> cases oi <;> cases cv <;> cases cc <;>
      simp_all [addOutro, addOutroTry]

/-- C7 witness: with the outro asset missing the pre-outro path is
returned unchanged. -/
theorem outro_soft_failure_witness :
    (OutroEnv.mk false true true true true).outroExists = false ∧
      addOutro ⟨false, true, true, true, true⟩ "clip_processed.mp4".data =
        Except.ok "clip_processed.mp4".data :=
  ⟨rfl, (outro_soft_failure ⟨false, true, true, true, true⟩ _).2 (Or.inl rfl)⟩

/-- A non-whitespace character of a string survives `str.strip()`: the two
`dropWhile` passes remove whitespace characters only. -/
theorem mem_pyStrip_of_not_ws {c : Char} {l : Text} (hc : c ∈ l)
    (hw : c.isWhitespace = false) : c ∈ pyStrip l := by
  have step : ∀ m : Text, c ∈ m → c ∈ m.dropWhile Char.isWhitespace := by
    intro m hm
    rcases List.mem_append.mp
        ((List.takeWhile_append_dropWhile Char.isWhitespace m) ▸ hm) with h | h
    · exact absurd (List.mem_takeWhile_imp h) (by simp [hw])
    · exact h
  exact List.mem_reverse.mpr (step _ (List.mem_reverse.mpr (step l hc)))

/-- A string containing a non-whitespace character does not strip to the
empty string. -/
theorem pyStrip_ne_nil {c : Char} {l : Text} (hc : c ∈ l)
    (hw : c.isWhitespace = false) : pyStrip l ≠ [] :=
  fun h => (List.not_mem_nil c) (h ▸ mem_pyStrip_of_not_ws hc hw)

/-- A nonempty stripped string contains a non-whitespace character (its
last character, the head before the final reversal). -/
theorem exists_not_ws_of_pyStrip_ne_nil {l : Text} (h : pyStrip l ≠ []) :
    ∃ c ∈ pyStrip l, c.isWhitespace = false := by
  unfold pyStrip at h ⊢
  rcases hY : (l.dropWhile Char.isWhitespace).reverse.dropWhile Char.isWhitespace with
    _ | ⟨y, ys⟩
  · exact absurd (by rw [hY]; rfl) h
  · refine ⟨y, ?_, ?_⟩
    · exact List.mem_reverse.mpr (List.mem_cons_self y ys)
    · have hne : (l.dropWhile Char.isWhitespace).reverse.dropWhile Char.isWhitespace ≠ [] := by
        rw [hY]; simp
      have hh := List.head_dropWhile_not Char.isWhitespace
        (l.dropWhile Char.isWhitespace).reverse hne
      have hy : ((l.dropWhile Char.isWhitespace).reverse.dropWhile
          Char.isWhitespace).head hne = y := by
        simp only [hY, List.head_cons]
      rwa [hy] at hh

/-- Stripping does not lengthen a string. -/
theorem pyStrip_length_le (l : Text) : (pyStrip l).length ≤ l.length := by
  unfold pyStrip
  calc ((l.dropWhile Char.isWhitespace).reverse.dropWhile Char.isWhitespace).reverse.length
      = ((l.dropWhile Char.isWhitespace).reverse.dropWhile Char.isWhitespace).length := by
        rw [List.length_reverse]
    _ ≤ (l.dropWhile Char.isWhitespace).reverse.length :=
        (List.dropWhile_sublist _).length_le
    _ = (l.dropWhile Char.isWhitespace).length := by rw [List.length_reverse]
    _ ≤ l.length := (List.dropWhile_sublist _).length_le

/-- Everything `_validate_overlay_data` keeps satisfies the per-item
invariants. -/
theorem validateItem_some_inv {i : RawItem} {o : OverlayItem}
    (h : validateItem i = some o) :
    0 ≤ o.timestamp ∧ pyStrip o.text ≠ [] ∧ o.text.length ≤ 100 ∧ 0 < o.duration := by
  cases i with
  | notDict => simp [validateItem] at h
  | obj ts tx du =>
    rw [validateItem] at h
    split at h <;> try exact Option.noConfusion h
    rename_i t hts
    split at h
    · exact Option.noConfusion h
    rename_i htneg
    split at h <;> try exact Option.noConfusion h
    rename_i s htx
    split at h
    · exact Option.noConfusion h
    rename_i hempty
    rw [Option.some_inj] at h
    subst h
    refine ⟨not_lt.mp htneg, ?_, ?_, ?_⟩
    · by_cases hlong : 100 < s.length
      · rw [if_pos hlong]
        have hdot : ('.' : Char) ∈ s.take 97 ++ ('.' :: '.' :: '.' :: []) := by simp
        exact pyStrip_ne_nil (mem_pyStrip_of_not_ws hdot (by decide)) (by decide)
      · rw [if_neg hlong]
        have hne : pyStrip s ≠ [] := fun hnil => hempty (by rw [hnil]; rfl)
        obtain ⟨c, hc, hcw⟩ := exists_not_ws_of_pyStrip_ne_nil hne
        exact pyStrip_ne_nil hc hcw
    · by_cases hlong : 100 < s.length
      · rw [if_pos hlong]
        refine le_trans (pyStrip_length_le _) ?_
        have htake : (s.take 97).length ≤ 97 := by simp
        simp only [List.length_append, List.length_cons, List.length_nil]
        omega
      · rw [if_neg hlong]
        exact le_trans (pyStrip_length_le _) (by omega)
    · rcases hdu : jGet du (JVal.num 3) with dq | _ | _ | _ <;> simp only
      · by_cases hdq : dq ≤ 0
        · simp only [if_pos hdq]; norm_num
        · simp only [if_neg hdq]; exact lt_of_not_le hdq
      all_goals norm_num

/-- C6: for every raw instruction list, in any order, the compiled overlay
list is sorted ascending by timestamp. -/
theorem compiled_overlays_sorted (items : Option (List RawItem)) :
    List.Pairwise (fun a b : OverlayItem => a.timestamp ≤ b.timestamp)
      (validateOverlayData items) := by
  unfold validateOverlayData sortByTimestamp
  refine List.Pairwise.imp ?_
    (List.sorted_mergeSort ?_ ?_ ((Option.getD items []).filterMap validateItem))
  · intro a b hab
    exact of_decide_eq_true hab
  · intro a b c hab hbc
    simp only [decide_eq_true_eq] at *
    exact le_trans hab hbc
  · intro a b
    simp only [Bool.or_eq_true, decide_eq_true_eq]
    exact le_total _ _

/-- C10: every validated overlay has a non-negative timestamp, text that is
non-empty after whitespace stripping and at most 100 characters long, and a
positive duration; and an item whose duration is missing or a non-positive
number is validated exactly as if its duration were 3.0 (kept, not
discarded). -/
theorem validated_overlay_invariants :
    (∀ (items : Option (List RawItem)) (o : OverlayItem), o ∈ validateOverlayData items →
      0 ≤ o.timestamp ∧ pyStrip o.text ≠ [] ∧ o.text.length ≤ 100 ∧ 0 < o.duration) ∧
    (∀ ts tx : JVal,
      validateItem (.obj ts tx .missing) = validateItem (.obj ts tx (.num 3))) ∧
    (∀ (ts tx : JVal) (q : ℚ), q ≤ 0 →
      validateItem (.obj ts tx (.num q)) = validateItem (.obj ts tx (.num 3))) := by
  refine ⟨?_, ?_, ?_⟩
  · intro items o hmem
    unfold validateOverlayData sortByTimestamp at hmem
    rw [List.mem_mergeSort] at hmem
    obtain ⟨i, _, hi⟩ := List.mem_filterMap.mp hmem
    exact validateItem_some_inv hi
  · intro ts tx
    rfl
  · intro ts tx q hq
    rw [validateItem, validateItem]
    rcases jGet ts (JVal.num 0) with t | _ | _ | _ <;> try rfl
    rcases jGet tx (JVal.str []) with _ | s | _ | _ <;> try rfl
    simp only [jGet, if_pos hq]
    norm_num

/-- C10 witness: a concrete item with missing duration is kept with
duration 3.0 and satisfies the invariants; a non-positive duration −1 is
validated like 3.0. -/
theorem validated_overlay_invariants_witness :
    ((⟨4, ['a'], 3⟩ : OverlayItem) ∈
        validateOverlayData (some [RawItem.obj (.num 4) (.str ['a']) .missing]) ∧
      (0 ≤ (4 : ℚ) ∧ pyStrip ['a'] ≠ [] ∧ (['a'] : Text).length ≤ 100 ∧ (0 : ℚ) < 3)) ∧
    validateItem (.obj (.num 4) (.str ['a']) .missing) =
      validateItem (.obj (.num 4) (.str ['a']) (.num 3)) ∧
    ((-1 : ℚ) ≤ 0 ∧ validateItem (.obj (.num 4) (.str ['a']) (.num (-1))) =
      validateItem (.obj (.num 4) (.str ['a']) (.num 3))) := by
  have hfm : List.filterMap validateItem [RawItem.obj (.num 4) (.str ['a']) .missing] =
      [⟨4, ['a'], 3⟩] := by
    norm_num [validateItem, jGet, List.filterMap]
    decide
  have hmem : (⟨4, ['a'], 3⟩ : OverlayItem) ∈
      validateOverlayData (some [RawItem.obj (.num 4) (.str ['a']) .missing]) := by
    simp [validateOverlayData, sortByTimestamp, hfm]
  exact ⟨⟨hmem, validated_overlay_invariants.1 _ _ hmem⟩,
    validated_overlay_invariants.2.1 _ _,
    ⟨by norm_num, validated_overlay_invariants.2.2 _ _ (-1) (by norm_num)⟩⟩

/-- C3 counterexample: a parsed instruction set whose single item fails
per-item validation (negative timestamp) compiles to the empty overlay
list — a silently empty set, not the documented single default. -/
theorem all_invalid_empty_cex :
    compileOverlays (some (some [RawItem.obj (.num (-1)) (.str ['x']) (.num 2)])) = [] := by
  have hfm : List.filterMap validateItem [RawItem.obj (.num (-1)) (.str ['x']) (.num 2)] =
      [] := by
    norm_num [validateItem, jGet, List.filterMap]
  simp [compileOverlays, validateOverlayData, extractOverlays, sortByTimestamp, hfm]

/-- C3 (amended): when extraction fails entirely (no JSON found) the single
documented default overlay is substituted and survives validation; but when
the instruction set parses and every item fails per-item validation, the
compiled result is the empty overlay list, with no fallback. -/
theorem unparseable_fallback_amended :
    compileOverlays none = [⟨5, "💰 Financial tip!".data, 3⟩] ∧
      (∀ items : List RawItem, (∀ i ∈ items, validateItem i = none) →
        compileOverlays (some (some items)) = []) := by
  constructor
  · have hfm : List.filterMap validateItem fallbackExtraction =
        [⟨5, "💰 Financial tip!".data, 3⟩] := by
      norm_num [validateItem, jGet, fallbackExtraction, List.filterMap]
      decide
    simp [compileOverlays, validateOverlayData, extractOverlays, sortByTimestamp, hfm]
  · intro items h
    have hfm : items.filterMap validateItem = [] := by
      simp only [List.filterMap_eq_nil_iff]
      intro i hi
      rw [h i hi]
    simp [compileOverlays, validateOverlayData, extractOverlays, sortByTimestamp, hfm]

/-- C3 witness: a list whose only element is not even a JSON object has
every item fail validation, and compiles to the empty list. -/
theorem unparseable_fallback_amended_witness :
    (∀ i ∈ [RawItem.notDict], validateItem i = none) ∧
      compileOverlays (some (some [RawItem.notDict])) = [] :=
  ⟨by simp [validateItem],
    unparseable_fallback_amended.2 [RawItem.notDict] (by simp [validateItem])⟩

/-- The empty string counts zero. -/
theorem strippedLen_nil : strippedLen ([] : Text) = 0 := rfl

/-- Counting one character. -/
theorem strippedLen_cons (c : Char) (l : Text) :
    strippedLen (c :: l) = (if isEmojiChar c then 0 else 1) + strippedLen l := by
  unfold strippedLen stripEmoji
  rcases h : isEmojiChar c <;> simp [List.filter_cons, h] <;> omega

/-- The counted length is additive over concatenation. -/
theorem strippedLen_append (a b : Text) :
    strippedLen (a ++ b) = strippedLen a + strippedLen b := by
  unfold strippedLen stripEmoji
  rw [List.filter_append, List.length_append]

/-- Reversal does not change the counted length. -/
theorem strippedLen_reverse (l : Text) : strippedLen l.reverse = strippedLen l := by
  unfold strippedLen stripEmoji
  rw [List.filter_reverse, List.length_reverse]

/-- No whitespace character is in the symbol class. -/
theorem ws_not_emoji {c : Char} (h : c.isWhitespace = true) : isEmojiChar c = false := by
  simp only [Char.isWhitespace, Bool.or_eq_true, decide_eq_true_eq] at h
  rcases h with ((h | h) | h) | h <;> subst h <;> decide

/-- A string with positive counted length is nonempty. -/
theorem ne_nil_of_strippedLen_pos {l : Text} (h : 0 < strippedLen l) : l ≠ [] := by
  rintro rfl
  simp [strippedLen, stripEmoji] at h

/-- `joinWords` on a cons with nonempty tail. -/
theorem joinWords_cons_of_ne (w : Text) {ws : List Text} (h : ws ≠ []) :
    joinWords (w :: ws) = w ++ ' ' :: joinWords ws := by
  cases ws with
  | nil => exact absurd rfl h
  | cons x xs => rfl

/-- Counted length of a join with nonempty tail. -/
theorem strippedLen_joinWords_cons (w : Text) {ws : List Text} (h : ws ≠ []) :
    strippedLen (joinWords (w :: ws)) =
      strippedLen w + 1 + strippedLen (joinWords ws) := by
  rw [joinWords_cons_of_ne w h, strippedLen_append, strippedLen_cons,
    show isEmojiChar ' ' = false from by decide]
  simp only [Bool.false_eq_true, if_false]
  omega

/-- The first word's counted length is at most the join's. -/
theorem strippedLen_le_joinWords (w : Text) (ws : List Text) :
    strippedLen w ≤ strippedLen (joinWords (w :: ws)) := by
  cases ws with
  | nil => exact le_refl _
  | cons x xs =>
    rw [strippedLen_joinWords_cons w (by simp)]
    omega

/-- Words produced by the splitter are nonempty and whitespace-free. -/
theorem splitWsGo_inv : ∀ (l acc : Text), (∀ c ∈ acc, c.isWhitespace = false) →
    ∀ w ∈ splitWsGo l acc, w ≠ [] ∧ ∀ c ∈ w, c.isWhitespace = false := by
  intro l
  induction l with
  | nil =>
    intro acc hacc w hw
    by_cases h : acc = []
    · simp [splitWsGo, h] at hw
    · simp only [splitWsGo, if_neg h, List.mem_singleton] at hw
      subst hw
      exact ⟨by simpa using h, fun c hc => hacc c (List.mem_reverse.mp hc)⟩
  | cons c cs ih =>
    intro acc hacc w hw
    simp only [splitWsGo] at hw
    by_cases hws : c.isWhitespace
    · rw [if_pos hws] at hw
      by_cases h : acc = []
      · rw [if_pos h] at hw
        exact ih [] (by simp) w hw
      · rw [if_neg h] at hw
        rcases List.mem_cons.mp hw with hw | hw
        · subst hw
          exact ⟨by simpa using h, fun d hd => hacc d (List.mem_reverse.mp hd)⟩
        · exact ih [] (by simp) w hw
    · rw [if_neg hws] at hw
      refine ih (c :: acc) ?_ w hw
      intro d hd
      rcases List.mem_cons.mp hd with hd | hd
      · subst hd; exact Bool.eq_false_iff.mpr hws
      · exact hacc d hd

/-- Every word of `splitWs t` is nonempty. -/
theorem splitWs_ne_nil {t : Text} {w : Text} (h : w ∈ splitWs t) : w ≠ [] :=
  (splitWsGo_inv t [] (by simp) w h).1

/-- Every character of every word of `splitWs t` is non-whitespace. -/
theorem splitWs_not_ws {t : Text} {w : Text} (h : w ∈ splitWs t) :
    ∀ c ∈ w, c.isWhitespace = false :=
  (splitWsGo_inv t [] (by simp) w h).2

/-- The single-space join of the split words counts at most as long as the
original text: every separator run contributed at least one non-symbol
character. -/
theorem strippedLen_joinWords_splitWsGo : ∀ (l acc : Text),
    strippedLen (joinWords (splitWsGo l acc)) ≤ strippedLen acc + strippedLen l := by
  intro l
  induction l with
  | nil =>
    intro acc
    by_cases h : acc = []
    · simp [splitWsGo, h, joinWords, strippedLen, stripEmoji]
    · simp only [splitWsGo, if_neg h, joinWords, strippedLen_reverse]
      simp [strippedLen, stripEmoji]
  | cons c cs ih =>
    intro acc
    simp only [splitWsGo]
    by_cases hws : c.isWhitespace
    · have hcw : strippedLen (c :: cs) = 1 + strippedLen cs := by
        rw [strippedLen_cons, ws_not_emoji hws]
        simp
      rw [if_pos hws]
      by_cases h : acc = []
      · rw [if_pos h]
        calc strippedLen (joinWords (splitWsGo cs [])) ≤
            strippedLen [] + strippedLen cs := ih []
          _ ≤ strippedLen acc + strippedLen (c :: cs) := by
              rw [hcw, strippedLen_nil]; omega
      · rw [if_neg h]
        rcases hrest : splitWsGo cs [] with _ | ⟨r, rs⟩
        · simp only [joinWords, strippedLen_reverse]
          omega
        · rw [strippedLen_joinWords_cons _ (by simp : (r :: rs) ≠ ([] : List Text)),
            strippedLen_reverse, hcw]
          have hb := ih []
          rw [strippedLen_nil, hrest] at hb
          omega
    · rw [if_neg hws]
      calc strippedLen (joinWords (splitWsGo cs (c :: acc))) ≤
          strippedLen (c :: acc) + strippedLen cs := ih (c :: acc)
        _ = strippedLen acc + strippedLen (c :: cs) := by
          rw [strippedLen_cons, strippedLen_cons]
          omega

/-- Specialization to `splitWs`. -/
theorem strippedLen_joinWords_splitWs (t : Text) :
    strippedLen (joinWords (splitWs t)) ≤ strippedLen t := by
  have h := strippedLen_joinWords_splitWsGo t []
  rw [strippedLen_nil] at h
  simpa [splitWs] using h

/-- Merging a built line with the next word is associative with the join. -/
theorem joinWords_glue (a b : Text) (rest : List Text) :
    joinWords ((a ++ ' ' :: b) :: rest) = a ++ ' ' :: joinWords (b :: rest) := by
  cases rest with
  | nil => rfl
  | cons r rs =>
    show (a ++ ' ' :: b) ++ ' ' :: joinWords (r :: rs) =
      a ++ ' ' :: joinWords (b :: r :: rs)
    rw [joinWords_cons_of_ne b (by simp : (r :: rs) ≠ ([] : List Text))]
    simp

/-- When every word fits, the accumulation loop builds one single line:
the space-join of the current line with all remaining words. -/
theorem wrapGo_fits (maxC : Nat) : ∀ (ws : List Text) (lines : List Text) (cur : Text),
    cur ≠ [] → strippedLen (joinWords (cur :: ws)) ≤ maxC →
    wrapGo maxC ws lines cur = lines ++ [joinWords (cur :: ws)] := by
  intro ws
  induction ws with
  | nil =>
    intro lines cur hcur _
    simp [wrapGo, hcur, joinWords]
  | cons w rest ih =>
    intro lines cur hcur hfit
    have hhead : strippedLen (joinWords (cur :: w :: rest)) =
        strippedLen cur + 1 + strippedLen (joinWords (w :: rest)) :=
      strippedLen_joinWords_cons cur (by simp)
    have hword : strippedLen w ≤ strippedLen (joinWords (w :: rest)) :=
      strippedLen_le_joinWords w rest
    have hpot : strippedLen cur + 1 + strippedLen w ≤ maxC := by omega
    simp only [wrapGo, if_neg hcur, if_pos hpot]
    have hglue : joinWords ((cur ++ ' ' :: w) :: rest) = joinWords (cur :: w :: rest) := by
      rw [joinWords_glue]
      exact (joinWords_cons_of_ne cur (by simp : (w :: rest) ≠ ([] : List Text))).symm
    rw [ih lines (cur ++ ' ' :: w) (by simp) (by rw [hglue]; exact hfit), hglue]

/-- Joining newline-free words with spaces yields a newline-free line. -/
theorem noNL_joinWords : ∀ {wsl : List Text}, (∀ w ∈ wsl, '\n' ∉ w) →
    '\n' ∉ joinWords wsl := by
  intro wsl
  induction wsl with
  | nil =>
    intro _ h
    simp [joinWords] at h
  | cons w rest ih =>
    intro hall hmem
    cases rest with
    | nil => exact hall w (List.mem_cons_self w []) hmem
    | cons r rs =>
      rw [joinWords_cons_of_ne w (by simp)] at hmem
      rcases List.mem_append.mp hmem with h | h
      · exact hall w (List.mem_cons_self w _) h
      · rcases List.mem_cons.mp h with h | h
        · exact absurd h (by decide)
        · exact ih (fun x hx => hall x (List.mem_cons_of_mem w hx)) h

/-- The pop loop only discards words: what remains was in the input. -/
theorem popRev_sub (maxC : Nat) : ∀ {l : List Text} {x : Text},
    x ∈ popRev maxC l → x ∈ l := by
  intro l
  induction l with
  | nil => intro x h; exact absurd h (by simp [popRev])
  | cons w ws ih =>
    intro x h
    rw [popRev] at h
    split at h
    · exact List.mem_cons_of_mem w (ih h)
    · exact h

/-- The retained last-line words were words of the original last line. -/
theorem popWhile_sub (maxC : Nat) {ws : List Text} {x : Text}
    (h : x ∈ popWhile maxC ws) : x ∈ ws := by
  unfold popWhile at h
  exact List.mem_reverse.mp (popRev_sub maxC (List.mem_reverse.mp h))

/-- Re-truncating a newline-free line yields a newline-free line. -/
theorem noNL_fixLastLine (maxC : Nat) {l : Text} (hl : '\n' ∉ l) :
    '\n' ∉ fixLastLine maxC l := by
  unfold fixLastLine
  split_ifs with hcond
  · intro hmem
    rcases List.mem_append.mp hmem with h | h
    · refine noNL_joinWords ?_ h
      intro w hw hnw
      have hws := splitWs_not_ws (popWhile_sub maxC hw) '\n' hnw
      exact absurd hws (by decide)
    · exact absurd h (by decide)
  · intro hmem
    rcases List.mem_append.mp hmem with h | h
    · exact hl h
    · exact absurd h (by decide)

/-- Every line the accumulation loop produces is newline-free when the
incoming lines, the current line and the words are newline-free. -/
theorem wrapGo_noNL (maxC : Nat) : ∀ (ws lines : List Text) (cur : Text),
    (∀ l ∈ lines, '\n' ∉ l) → '\n' ∉ cur → (∀ w ∈ ws, '\n' ∉ w) →
    ∀ l ∈ wrapGo maxC ws lines cur, '\n' ∉ l := by
  intro ws
  induction ws with
  | nil =>
    intro lines cur hlines hcur _ l hl
    rw [wrapGo] at hl
    split at hl
    · exact hlines l hl
    · rcases List.mem_append.mp hl with h | h
      · exact hlines l h
      · rw [List.mem_singleton] at h
        subst h
        exact hcur
  | cons w rest ih =>
    intro lines cur hlines hcur hws l hl
    simp only [wrapGo] at hl
    by_cases hcur0 : cur = []
    · rw [if_pos hcur0] at hl
      split at hl
      · refine ih lines w hlines (hws w (List.mem_cons_self w _)) ?_ l hl
        exact fun x hx => hws x (List.mem_cons_of_mem w hx)
      · refine ih lines w hlines (hws w (List.mem_cons_self w _)) ?_ l hl
        exact fun x hx => hws x (List.mem_cons_of_mem w hx)
    · rw [if_neg hcur0] at hl
      split at hl
      · refine ih lines (cur ++ ' ' :: w) hlines ?_ ?_ l hl
        · intro hmem
          rcases List.mem_append.mp hmem with h | h
          · exact hcur h
          · rcases List.mem_cons.mp h with h | h
            · exact absurd h (by decide)
            · exact hws w (List.mem_cons_self w _) h
        · exact fun x hx => hws x (List.mem_cons_of_mem w hx)
      · refine ih (lines ++ [cur]) w ?_ (hws w (List.mem_cons_self w _)) ?_ l hl
        · intro x hx
          rcases List.mem_append.mp hx with h | h
          · exact hlines x h
          · rw [List.mem_singleton] at h
            subst h
            exact hcur
        · exact fun x hx => hws x (List.mem_cons_of_mem w hx)

/-- The 2-line truncation returns at most two lines, each either an
original line or the ellipsis fix of an original line. -/
theorem truncTo2_spec (maxC : Nat) (lines : List Text) :
    (truncTo2 maxC lines).length ≤ 2 ∧
      ∀ l ∈ truncTo2 maxC lines,
        l ∈ lines ∨ ∃ b ∈ lines, l = fixLastLine maxC b := by
  rcases lines with _ | ⟨a, _ | ⟨b, _ | ⟨c, rest⟩⟩⟩
  · exact ⟨by simp [truncTo2], fun l hl => Or.inl (by simpa [truncTo2] using hl)⟩
  · exact ⟨by simp [truncTo2], fun l hl => Or.inl (by simpa [truncTo2] using hl)⟩
  · exact ⟨by simp [truncTo2], fun l hl => Or.inl (by simpa [truncTo2] using hl)⟩
  · have hm : truncTo2 maxC (a :: b :: c :: rest) = [a, fixLastLine maxC b] := by
      unfold truncTo2
      rw [if_pos (by simp : 2 < (a :: b :: c :: rest).length)]
      rfl
    rw [hm]
    refine ⟨by simp, ?_⟩
    intro l hl
    rcases List.mem_cons.mp hl with h | h
    · exact Or.inl (h ▸ List.mem_cons_self a _)
    · rw [List.mem_singleton] at h
      exact Or.inr ⟨b, List.mem_cons_of_mem a (List.mem_cons_self b _), h⟩

/-- At most two newline-free lines join into a text with at most one
newline character. -/
theorem count_nl_joinNL (lines : List Text) (hlen : lines.length ≤ 2)
    (hnl : ∀ l ∈ lines, '\n' ∉ l) : (joinNL lines).count '\n' ≤ 1 := by
  rcases lines with _ | ⟨a, _ | ⟨b, _ | _⟩⟩
  · simp [joinNL]
  · show (List.count '\n' a) ≤ 1
    rw [List.count_eq_zero.mpr (hnl a (List.mem_cons_self a _))]
    omega
  · show (List.count '\n' (a ++ '\n' :: b)) ≤ 1
    rw [List.count_append, List.count_cons_self,
      List.count_eq_zero.mpr (hnl a (List.mem_cons_self a _)),
      List.count_eq_zero.mpr (hnl b (by simp))]
  · simp at hlen

/-- One step of the accumulation loop from the empty current line, when
the first word fits. -/
theorem wrapGo_first_step (maxC : Nat) (w : Text) (ws : List Text)
    (h : strippedLen w ≤ maxC) :
    wrapGo maxC (w :: ws) [] [] = wrapGo maxC ws [] w := by
  simp [wrapGo, h]

/-- C1 counterexample: with no optional stage (logo off, and the single
overlay at 100s dropped against the 60s duration, so the compiled overlay
chain is empty — the spec's Scenario B) the assembled plan still contains
the mandatory crop/scale stage, the invocation passes `-filter_complex`,
and no `copy` codec argument appears anywhere in the command. -/
theorem stream_copy_never_cex :
    (assembleFilters noLogoCfg 1920 1080 60 [⟨100, "Hi".data, 3⟩]).1 ≠ [] ∧
      "-filter_complex".data ∈
        buildCmd noLogoCfg "in.mp4".data "logo.png".data "out.mp4".data
          1920 1080 60 [⟨100, "Hi".data, 3⟩] ∧
      "copy".data ∉
        buildCmd noLogoCfg "in.mp4".data "logo.png".data "out.mp4".data
          1920 1080 60 [⟨100, "Hi".data, 3⟩] := by
  have hc : calcCropParams 1920 1080 = (607, 1080, 656, 0) := by
    norm_num [calcCropParams, pyTrunc]
    decide
  have hw : drawtextFilter noLogoCfg ⟨100, "Hi".data, 3⟩ 60 = none := by
    rw [drawtextFilter, overlayWindow]
    norm_num
  refine ⟨?_, ?_, ?_⟩ <;>
    simp only [buildCmd, assembleFilters, createOverlayFilter, List.filterMap, hc, hw] <;>
    decide

/-- C1 (amended): the assembled filter plan always contains the mandatory
crop (and possibly scale) stage, so it is never empty — also when no
optional stage applies — and every render invocation passes
`-filter_complex`; the direct stream-copy branch of the engine is
unreachable and both streams are always re-encoded with the configured
codecs. -/
theorem filter_plan_never_empty (cfg : RenderConfig) (vp lp op : Text) (w h : ℤ)
    (dur : ℚ) (os : List OverlayItem) :
    (assembleFilters cfg w h dur os).1 ≠ [] ∧
      "-filter_complex".data ∈ buildCmd cfg vp lp op w h dur os := by
  have h1 : (assembleFilters cfg w h dur os).1 ≠ [] := by
    simp only [assembleFilters]
    split_ifs <;> simp
  refine ⟨h1, ?_⟩
  simp only [buildCmd, if_pos h1]
  simp

/-- C5 counterexample: a symbolic glyph present in the input text is
dropped from the final wrapped text: with budget 20, a third word carrying
the glyph falls beyond the 2-line cut and the whole second line is popped
down to a bare ellipsis, so the glyph does not survive. -/
theorem glyph_dropped_cex :
    '😀' ∈ ("aaaaaaaaaaaaaaaaaaaa bbbbbbbbbbbbbbbbbbbb 😀".data) ∧
      '😀' ∉ wrapText 20 ("aaaaaaaaaaaaaaaaaaaa bbbbbbbbbbbbbbbbbbbb 😀".data) := by
  constructor
  · decide
  · decide

/-- C5 (amended): text whose symbol-stripped length is within the budget
wraps to a single line (no newline); every wrapped result has at most 2
lines (at most one newline); whenever the greedy pass produces more than
two lines the result is exactly two lines with the second
ellipsis-terminated; and the concrete two-leading-glyphs-plus-45-plain-
characters text at budget 20 wraps to exactly the expected two lines with
the glyphs intact and the second line ellipsis-terminated.  (Glyphs on
lines beyond the 2-line cut, however, are dropped with their lines.) -/
theorem wrap_text_amended :
    (∀ (maxC : Nat) (t : Text), strippedLen t ≤ maxC → '\n' ∉ wrapText maxC t) ∧
      (∀ (maxC : Nat) (t : Text), (wrapText maxC t).count '\n' ≤ 1) ∧
      (∀ (maxC : Nat) (t : Text), 2 < (wrapGo maxC (splitWs t) [] []).length →
        ∃ a b, wrapText maxC t = a ++ '\n' :: (b ++ ('.' :: '.' :: '.' :: []))) ∧
      wrapText 20 ("💰💰Smart money habits build lasting wealth today".data) =
        "💰💰Smart money habits\nbuild lasting...".data := by
  refine ⟨?_, ?_, ?_, by decide⟩
  · intro maxC t hlen
    unfold wrapText
    rcases hsp : splitWs t with _ | ⟨w, ws⟩
    · simp [wrapGo, truncTo2, joinNL]
    · have hwmem : w ∈ splitWs t := by rw [hsp]; exact List.mem_cons_self w ws
      have hwne : w ≠ [] := splitWs_ne_nil hwmem
      have hfit : strippedLen (joinWords (w :: ws)) ≤ maxC := by
        have h := strippedLen_joinWords_splitWs t
        rw [hsp] at h
        omega
      have hw1 : strippedLen w ≤ maxC :=
        le_trans (strippedLen_le_joinWords w ws) hfit
      rw [wrapGo_first_step maxC w ws hw1, wrapGo_fits maxC ws [] w hwne hfit]
      have htr : truncTo2 maxC ([] ++ [joinWords (w :: ws)]) = [joinWords (w :: ws)] := by
        simp [truncTo2]
      rw [htr]
      show '\n' ∉ joinWords (w :: ws)
      refine noNL_joinWords ?_
      intro x hx hnx
      have := splitWs_not_ws (hsp ▸ hx) '\n' hnx
      exact absurd this (by decide)
  · intro maxC t
    unfold wrapText
    have hnoNL : ∀ l ∈ wrapGo maxC (splitWs t) [] [], '\n' ∉ l := by
      refine wrapGo_noNL maxC (splitWs t) [] [] (by simp) (by simp) ?_
      intro w hw hnw
      exact absurd (splitWs_not_ws hw '\n' hnw) (by decide)
    obtain ⟨hlen2, hmem⟩ := truncTo2_spec maxC (wrapGo maxC (splitWs t) [] [])
    refine count_nl_joinNL _ hlen2 ?_
    intro l hl
    rcases hmem l hl with h | ⟨b, hb, rfl⟩
    · exact hnoNL l h
    · exact noNL_fixLastLine maxC (hnoNL b hb)
  · intro maxC t h3
    unfold wrapText
    rcases hL : wrapGo maxC (splitWs t) [] [] with _ | ⟨a, _ | ⟨b, _ | ⟨c, rest⟩⟩⟩ <;>
      rw [hL] at h3 <;> try simp at h3
    have hm : truncTo2 maxC (a :: b :: c :: rest) = [a, fixLastLine maxC b] := by
      unfold truncTo2
      rw [if_pos (by simp : 2 < (a :: b :: c :: rest).length)]
      rfl
    rw [hm]
    show ∃ x y, a ++ '\n' :: fixLastLine maxC b = x ++ '\n' :: (y ++ ('.' :: '.' :: '.' :: []))
    by_cases hfix : ((maxC : ℤ) - 3 < (strippedLen b : ℤ))
    · refine ⟨a, joinWords (popWhile maxC (splitWs b)), ?_⟩
      have hfx : fixLastLine maxC b =
          joinWords (popWhile maxC (splitWs b)) ++ ('.' :: '.' :: '.' :: []) := by
        unfold fixLastLine
        rw [if_pos hfix]
      rw [hfx]
    · refine ⟨a, b, ?_⟩
      have hfx : fixLastLine maxC b = b ++ ('.' :: '.' :: '.' :: []) := by
        unfold fixLastLine
        rw [if_neg hfix]
      rw [hfx]

/-- C5 witness: a short text within the budget wraps to one line. -/
theorem wrap_text_amended_witness :
    strippedLen ("hello world".data) ≤ 20 ∧ '\n' ∉ wrapText 20 ("hello world".data) :=
  ⟨by decide, wrap_text_amended.1 20 ("hello world".data) (by decide)⟩

/-- C9: the accumulation loop never splits a word: a word whose
symbol-stripped length alone exceeds the budget becomes a whole line of the
greedy line list by itself, and that line's symbol-stripped length exceeds
the budget. -/
theorem long_word_own_line (maxC : Nat) (t : Text) (w : Text)
    (hw : w ∈ splitWs t) (hlong : maxC < strippedLen w) :
    w ∈ wrapGo maxC (splitWs t) [] [] ∧ maxC < strippedLen w := by
  refine ⟨?_, hlong⟩
  have hmono : ∀ (ws lines : List Text) (cur : Text) (l : Text),
      l ∈ lines → l ∈ wrapGo maxC ws lines cur := by
    intro ws
    induction ws with
    | nil =>
      intro lines cur l hl
      rw [wrapGo]
      split
      · exact hl
      · exact List.mem_append_left _ hl
    | cons x rest ih =>
      intro lines cur l hl
      simp only [wrapGo]
      split <;> split <;>
        first
        | exact ih _ _ l hl
        | exact ih _ _ l (List.mem_append_left _ hl)
  have hself : ∀ (ws lines : List Text) (cur : Text), maxC < strippedLen cur →
      cur ∈ wrapGo maxC ws lines cur := by
    intro ws
    induction ws with
    | nil =>
      intro lines cur hcur
      have hne : cur ≠ [] := ne_nil_of_strippedLen_pos (by omega)
      rw [wrapGo, if_neg hne]
      exact List.mem_append_right _ (List.mem_singleton.mpr rfl)
    | cons x rest ih =>
      intro lines cur hcur
      have hne : cur ≠ [] := ne_nil_of_strippedLen_pos (by omega)
      simp only [wrapGo, if_neg hne]
      rw [if_neg (by omega : ¬ strippedLen cur + 1 + strippedLen x ≤ maxC)]
      exact hmono rest (lines ++ [cur]) x cur
        (List.mem_append_right _ (List.mem_singleton.mpr rfl))
  have hmain : ∀ (ws lines : List Text) (cur : Text), w ∈ ws →
      w ∈ wrapGo maxC ws lines cur := by
    intro ws
    induction ws with
    | nil =>
      intro lines cur h
      exact absurd h (List.not_mem_nil w)
    | cons x rest ih =>
      intro lines cur hmem
      rcases List.mem_cons.mp hmem with rfl | hmem
      · simp only [wrapGo]
        by_cases hcur : cur = []
        · simp only [if_pos hcur]
          rw [if_neg (by omega : ¬ strippedLen w ≤ maxC)]
          exact hself rest lines w hlong
        · simp only [if_neg hcur]
          rw [if_neg (by omega : ¬ strippedLen cur + 1 + strippedLen w ≤ maxC)]
          exact hself rest (lines ++ [cur]) w hlong
      · simp only [wrapGo]
        split <;> split <;> exact ih _ _ hmem
  exact hmain (splitWs t) [] [] hw

/-- C9 witness: a 34-character word at budget 20 appears unbroken as its
own line of the greedy line list. -/
theorem long_word_own_line_witness :
    ("supercalifragilisticexpialidocious".data ∈
        splitWs ("supercalifragilisticexpialidocious is long".data)) ∧
      20 < strippedLen ("supercalifragilisticexpialidocious".data) ∧
      ("supercalifragilisticexpialidocious".data ∈
          wrapGo 20 (splitWs ("supercalifragilisticexpialidocious is long".data)) [] [] ∧
        20 < strippedLen ("supercalifragilisticexpialidocious".data)) :=
  ⟨by decide, by decide,
    long_word_own_line 20 ("supercalifragilisticexpialidocious is long".data)
      ("supercalifragilisticexpialidocious".data) (by decide) (by decide)⟩

end VidCore
